import Mathlib

/-!
# Verification of a knock-out barrier swaption Monte Carlo pricer

Shallow embedding of the numerical kernel of `Swaption.ipynb`:
the swap-rate functional, the two barrier projections, the correlated
±1 shock injection, the LMM log-Euler drift, the tiered barrier checks
of the path loop, and the final per-path aggregation.  Real (`ℝ`)
arithmetic models the notebook's float arithmetic; `np.cumprod y` is
modelled by its defining property `i ↦ ∏ j ≤ i, y j`.
-/

namespace Swaption

noncomputable section

/-- Cumulative product, entry `i` of `np.cumprod f`: the product of
`f 0, …, f i`. -/
def cumProd {N : ℕ} (f : Fin N → ℝ) (i : Fin N) : ℝ :=
  ∏ j ∈ Finset.Iic i, f j

/-- `R_swap(logL, delta)` from the notebook:
`L = exp(logL)`, numerator `1 - 1/∏ (1+δ L_j)`,
denominator `δ * Σ_i 1/cumprod(1+δ L)_i`. -/
def R_swap {N : ℕ} (logL : Fin N → ℝ) (delta : ℝ) : ℝ :=
  let L : Fin N → ℝ := fun i => Real.exp (logL i)
  let numer : ℝ := 1 - 1 / ∏ j, (1 + delta * L j)
  let denom : ℝ := delta * ∑ i, 1 / cumProd (fun j => 1 + delta * L j) i
  numer / denom

/-- On a constant vector, entry `i` of the cumulative product is the
`(i+1)`-st power. -/
lemma cumProd_const {N : ℕ} (c : ℝ) (i : Fin N) :
    cumProd (fun _ => c) i = c ^ ((i : ℕ) + 1) := by
  simp [cumProd, Finset.prod_const, Fin.card_Iic]

/-- Telescoping evaluation of the annuity denominator on a constant
curve: `(q-1) * Σ_{i<N} q^{-(i+1)} = 1 - q^{-N}` for `q ≠ 0`. -/
lemma geom_sum_eval (q : ℝ) (hq : q ≠ 0) (N : ℕ) :
    (q - 1) * ∑ i : Fin N, (q ^ ((i : ℕ) + 1))⁻¹ = 1 - (q ^ N)⁻¹ := by
  induction N with
  | zero => simp
  | succ n ih =>
    rw [Fin.sum_univ_castSucc]
    simp only [Fin.coe_castSucc, Fin.val_last]
    rw [mul_add, ih]
    have hqp : q ^ (n + 1) ≠ 0 := pow_ne_zero _ hq
    have hqn : q ^ n ≠ 0 := pow_ne_zero _ hq
    field_simp
    ring

/-- Helper: the swap rate of the all-equal curve `L = [c]*N` is exactly
`c`, for `N ≥ 1`, `δ > 0`, `c > 0`. -/
lemma R_swap_const {N : ℕ} (hN : 1 ≤ N) (delta c : ℝ)
    (hd : 0 < delta) (hc : 0 < c) :
    R_swap (fun _ : Fin N => Real.log c) delta = c := by
  unfold R_swap
  simp only [Real.exp_log hc]
  set q : ℝ := 1 + delta * c with hqdef
  have hq1 : 1 < q := by
    have : 0 < delta * c := mul_pos hd hc
    simp only [hqdef]; linarith
  have hq0 : 0 < q := lt_trans one_pos hq1
  have hqne : q ≠ 0 := ne_of_gt hq0
  have hprod : (∏ _j : Fin N, q) = q ^ N := by
    simp [Finset.prod_const]
  have hsum : (∑ i : Fin N, 1 / cumProd (fun _ : Fin N => q) i)
      = ∑ i : Fin N, (q ^ ((i : ℕ) + 1))⁻¹ := by
    refine Finset.sum_congr rfl fun i _ => ?_
    rw [cumProd_const q i, one_div]
  rw [hprod, hsum]
  have hkey : (q - 1) * ∑ i : Fin N, (q ^ ((i : ℕ) + 1))⁻¹ = 1 - (q ^ N)⁻¹ :=
    geom_sum_eval q hqne N
  have hq1' : q - 1 = delta * c := by simp [hqdef]
  -- the numerator `1 - 1/q^N` is positive since q > 1 and N ≥ 1
  have hqNgt : 1 < q ^ N := one_lt_pow₀ hq1 (by omega)
  have hnum_pos : 0 < 1 - (q ^ N)⁻¹ := by
    have h1 : (q ^ N)⁻¹ < 1 := by
      have := inv_lt_one_of_one_lt₀ hqNgt
      exact this
    linarith
  have hsum_pos : 0 < ∑ i : Fin N, (q ^ ((i : ℕ) + 1))⁻¹ := by
    have hq1pos : 0 < q - 1 := by linarith
    nlinarith [hnum_pos, hkey]
  rw [one_div, div_eq_iff (by positivity)]
  -- goal: 1 - (q^N)⁻¹ = c * (delta * Σ …)
  calc 1 - (q ^ N)⁻¹ = (q - 1) * ∑ i : Fin N, (q ^ ((i : ℕ) + 1))⁻¹ :=
        hkey.symm
    _ = c * (delta * ∑ i : Fin N, (q ^ ((i : ℕ) + 1))⁻¹) := by
        rw [hq1']; ring

/-- C9: for every `N ≥ 1`, `δ > 0`, `c > 0`, the swap rate of the
all-equal forward curve `L0 = [c]*N` equals `c` exactly. -/
theorem theorem_C9 {N : ℕ} (hN : 1 ≤ N) (delta c : ℝ)
    (hd : 0 < delta) (hc : 0 < c) :
    R_swap (fun _ : Fin N => Real.log c) delta = c :=
  R_swap_const hN delta c hd hc

/-- Witness for C9 at the notebook's configuration `N = 10`, `δ = 1`,
`c = 0.05 = 1/20`. -/
theorem theorem_C9_witness :
    1 ≤ 10 ∧ (0:ℝ) < 1 ∧ (0:ℝ) < 1/20 ∧
      R_swap (fun _ : Fin 10 => Real.log (1/20)) 1 = 1/20 :=
  ⟨by norm_num, by norm_num, by norm_num,
    theorem_C9 (by norm_num) 1 (1/20) (by norm_num) (by norm_num)⟩

/-- Monotone lower bound: if every forward rate `exp(logL i)` is at
least `c > 0`, the swap rate is at least `c` (the numerator grows and
the annuity denominator shrinks as rates rise). -/
lemma R_swap_ge {N : ℕ} (hN : 1 ≤ N) (logL : Fin N → ℝ) (delta c : ℝ)
    (hd : 0 < delta) (hc : 0 < c) (hL : ∀ i, c ≤ Real.exp (logL i)) :
    c ≤ R_swap logL delta := by
  haveI : Nonempty (Fin N) := ⟨⟨0, by omega⟩⟩
  set q : ℝ := 1 + delta * c with hqdef
  have hq1 : 1 < q := by
    have : 0 < delta * c := mul_pos hd hc
    simp only [hqdef]; linarith
  have hq0 : 0 < q := lt_trans one_pos hq1
  set f : Fin N → ℝ := fun j => 1 + delta * Real.exp (logL j) with hfdef
  have hRform : R_swap logL delta
      = (1 - 1 / ∏ j, f j) / (delta * ∑ i, 1 / cumProd f i) := rfl
  have hfq : ∀ j, q ≤ f j := by
    intro j
    simp only [hfdef, hqdef]
    have h1 := hL j
    nlinarith [hd]
  have hfpos : ∀ j, 0 < f j := fun j => lt_of_lt_of_le hq0 (hfq j)
  have hP : q ^ N ≤ ∏ j, f j := by
    calc q ^ N = ∏ _j : Fin N, q := by simp [Finset.prod_const]
      _ ≤ ∏ j, f j :=
        Finset.prod_le_prod (fun i _ => le_of_lt hq0) (fun i _ => hfq i)
  have hPpos : 0 < ∏ j, f j := Finset.prod_pos fun i _ => hfpos i
  have hcum : ∀ i : Fin N, q ^ ((i : ℕ) + 1) ≤ cumProd f i := by
    intro i
    unfold cumProd
    calc q ^ ((i : ℕ) + 1) = ∏ _j ∈ Finset.Iic i, q := by
          simp [Finset.prod_const, Fin.card_Iic]
      _ ≤ ∏ j ∈ Finset.Iic i, f j :=
        Finset.prod_le_prod (fun j _ => le_of_lt hq0) (fun j _ => hfq j)
  have hcumpos : ∀ i : Fin N, 0 < cumProd f i := fun i =>
    Finset.prod_pos fun j _ => hfpos j
  have hsumle : (∑ i, 1 / cumProd f i) ≤ ∑ i : Fin N, (q ^ ((i : ℕ) + 1))⁻¹ := by
    apply Finset.sum_le_sum
    intro i _
    rw [one_div]
    exact inv_anti₀ (by positivity) (hcum i)
  have hsumpos : 0 < ∑ i, 1 / cumProd f i :=
    Finset.sum_pos (fun i _ => one_div_pos.mpr (hcumpos i)) Finset.univ_nonempty
  have hgeom := geom_sum_eval q (ne_of_gt hq0) N
  rw [hRform, le_div_iff₀ (by positivity)]
  have h1 : c * (delta * ∑ i, 1 / cumProd f i)
      ≤ c * (delta * ∑ i : Fin N, (q ^ ((i : ℕ) + 1))⁻¹) := by
    apply mul_le_mul_of_nonneg_left _ (le_of_lt hc)
    exact mul_le_mul_of_nonneg_left hsumle (le_of_lt hd)
  have h2 : c * (delta * ∑ i : Fin N, (q ^ ((i : ℕ) + 1))⁻¹)
      = 1 - (q ^ N)⁻¹ := by
    rw [← hgeom]
    have hq1' : q - 1 = delta * c := by simp [hqdef]
    rw [hq1']; ring
  have h3 : 1 / (∏ j, f j) ≤ (q ^ N)⁻¹ := by
    rw [one_div]
    exact inv_anti₀ (by positivity) hP
  linarith

/-! ## Tiered barrier checks of the MC path loop -/

/-- `coarse_bound` from eq. (6.7), exactly as precomputed per path:
`sigma_max**2*h*N - 0.5*sigma_max**2*h + sigma_max*np.sqrt(h*N)`. -/
def coarse_bound (sigma_max h : ℝ) (N : ℕ) : ℝ :=
  sigma_max ^ 2 * h * N - 1/2 * sigma_max ^ 2 * h
    + sigma_max * Real.sqrt (h * N)

/-- `np.max(logL)` of a (nonempty) state vector. -/
def vecMax {N : ℕ} [NeZero N] (x : Fin N → ℝ) : ℝ :=
  Finset.univ.sup' Finset.univ_nonempty x

/-- The coarse check of the path loop:
`np.max(logL) + coarse_bound < np.log(Rup)`. -/
def coarseCheck {N : ℕ} [NeZero N] (logL : Fin N → ℝ) (cb Rup : ℝ) : Prop :=
  vecMax logL + cb < Real.log Rup

/-- The worst-case-perturbed curve of the fine check:
`L_pert = L * (1 + (idx+1)*sigma*sigma_max*h + sigma*np.sqrt((N-idx)*h))`. -/
def L_pert {N : ℕ} (L sigma : Fin N → ℝ) (sigma_max h : ℝ) : Fin N → ℝ :=
  fun i => L i * (1 + ((i : ℕ) + 1 : ℝ) * sigma i * sigma_max * h
    + sigma i * Real.sqrt (((N : ℝ) - (i : ℕ)) * h))

/-- The fine check of the path loop:
`R_swap(np.log(L_pert), delta) < Rup`. -/
def fineCheck {N : ℕ} (L sigma : Fin N → ℝ) (sigma_max h delta Rup : ℝ) :
    Prop :=
  R_swap (fun i => Real.log (L_pert L sigma sigma_max h i)) delta < Rup

/-- C5 (code evaluation): at the invalid configuration `Rup = 1/25 ≤
swapRate(L0, δ) = 1/20` (`N = 10`, `δ = 1`, `h = 1/10`, `σ = 0.1`,
`L0 = [0.05]*10`), no configuration check exists: the simulation loop
is entered, and at step 0 both the coarse and the fine check fail, so
the loop body proceeds into the boundary-zone branch rather than
raising any configuration error. -/
theorem theorem_C5 :
    (1/25 : ℝ) ≤ R_swap (fun _ : Fin 10 => Real.log (1/20)) 1 ∧
      ¬ coarseCheck (fun _ : Fin 10 => Real.log (1/20))
          (coarse_bound (1/10) (1/10) 10) (1/25) ∧
      ¬ fineCheck (fun _ : Fin 10 => (1/20 : ℝ)) (fun _ => 1/10)
          (1/10) (1/10) 1 (1/25) := by
  have hRconst : R_swap (fun _ : Fin 10 => Real.log (1/20)) 1 = 1/20 :=
    R_swap_const (by norm_num) 1 (1/20) (by norm_num) (by norm_num)
  have hsqrt1 : Real.sqrt ((1/10 : ℝ) * (10 : ℕ)) = 1 := by
    rw [show ((1/10 : ℝ) * (10 : ℕ)) = 1 by norm_num]
    exact Real.sqrt_one
  have hcb : coarse_bound (1/10) (1/10) 10 = 1/100 - 1/2000 + 1/10 := by
    unfold coarse_bound
    rw [hsqrt1]
    norm_num
  refine ⟨by rw [hRconst]; norm_num, ?_, ?_⟩
  · -- coarse check fails: log is monotone and the bound is positive
    unfold coarseCheck
    have hmax : vecMax (fun _ : Fin 10 => Real.log (1/20)) = Real.log (1/20) := by
      unfold vecMax
      exact Finset.sup'_const _ _
    rw [hmax, hcb]
    push_neg
    have hlog : Real.log (1/25) ≤ Real.log (1/20) :=
      Real.log_le_log (by norm_num) (by norm_num)
    linarith
  · -- fine check fails: the perturbed curve dominates the flat curve,
    -- so its swap rate is at least 1/20 > 1/25
    unfold fineCheck
    push_neg
    have hperl : ∀ i : Fin 10,
        (1/20 : ℝ) ≤ L_pert (fun _ => 1/20) (fun _ => 1/10) (1/10) (1/10) i := by
      intro i
      unfold L_pert
      have ha : (0:ℝ) ≤ ((i : ℕ) + 1 : ℝ) * (1/10) * (1/10) * (1/10) := by
        positivity
      have hb : (0:ℝ) ≤ (1/10) * Real.sqrt (((10 : ℝ) - (i : ℕ)) * (1/10)) := by
        positivity
      nlinarith [ha, hb]
    have hge : (1/20 : ℝ) ≤ R_swap
        (fun i => Real.log
          (L_pert (fun _ : Fin 10 => (1/20:ℝ)) (fun _ => 1/10) (1/10) (1/10) i)) 1 := by
      apply R_swap_ge (by norm_num) _ 1 (1/20) (by norm_num) (by norm_num)
      intro i
      rw [Real.exp_log (lt_of_lt_of_le (by norm_num) (hperl i))]
      exact hperl i
    linarith

/-! ## Fast barrier projection (`project_to_barrier2`), two-rate instance

For `N = 2` the tail is the single coordinate `y = logL[1]`.  In the
code, `one_plus = 1 + δ·exp y` (a 1-vector), `prods = revcp = one_plus`,
`sum_term = 1 + prods.sum()`, `numerator = Rup*sum_term + 1`,
`denominator = prod(one_plus)`, and
`logL0 = np.log(numerator/denominator) - 1.0/delta`
(the code's own comment notes the subtraction sits outside the log,
whereas the notebook's equation (6.13) has it inside). -/

/-- `sum_term` of `project_to_barrier2` at `N = 2`:
`1 + Σ` of the suffix products of `(1+δ·L_j)` over `j ≥ 1`. -/
def sum_term2 (delta y : ℝ) : ℝ := 1 + (1 + delta * Real.exp y)

/-- `numerator` of `project_to_barrier2` at `N = 2`. -/
def numerator2 (delta Rup y : ℝ) : ℝ := Rup * sum_term2 delta y + 1

/-- `denominator` of `project_to_barrier2` at `N = 2`:
`∏_{j≥1} (1+δ·L_j)`. -/
def denominator2 (delta y : ℝ) : ℝ := 1 + delta * Real.exp y

/-- The reconstructed coordinate `logL0` exactly as the code computes
it: `np.log(numerator/denominator) - 1.0/delta` — the `1/δ` is
subtracted outside the logarithm. -/
def logL0_code (delta Rup y : ℝ) : ℝ :=
  Real.log (numerator2 delta Rup y / denominator2 delta y) - 1 / delta

/-- The reconstructed coordinate prescribed by the notebook's own
equation (6.13) (and by the spec): the `1/δ` is subtracted inside the
logarithm. -/
def logL0_eq613 (delta Rup y : ℝ) : ℝ :=
  Real.log (numerator2 delta Rup y / denominator2 delta y - 1 / delta)

/-- The full vector `logLpi` reconstructed by `project_to_barrier2`
from the tail `y` (two-rate instance). -/
def reconstruct2 (delta Rup y : ℝ) : Fin 2 → ℝ :=
  ![logL0_code delta Rup y, y]

/-- The objective minimized by `project_to_barrier2`:
`np.sum((logLpi - x)**2)` with `logLpi = reconstruct2 … y`. -/
def objective2 (delta Rup : ℝ) (x : Fin 2 → ℝ) (y : ℝ) : ℝ :=
  ∑ i, (reconstruct2 delta Rup y i - x i) ^ 2

/-- Closed form of the two-rate swap rate:
`R_swap = ((1+L0)(1+L1) - 1) / ((1+L1) + 1)` at `δ = 1`. -/
lemma R_swap_two (a b : ℝ) :
    R_swap ![a, b] 1 =
      (1 - 1 / ((1 + Real.exp a) * (1 + Real.exp b))) /
        (1 / (1 + Real.exp a) +
          1 / ((1 + Real.exp a) * (1 + Real.exp b))) := by
  have hIic0 : (Finset.Iic (0 : Fin 2)) = {0} := rfl
  have hIic1 : (Finset.Iic (1 : Fin 2)) = {0, 1} := rfl
  unfold R_swap cumProd
  simp [Fin.prod_univ_two, Fin.sum_univ_two, hIic0, hIic1,
    Finset.prod_insert, Finset.prod_singleton]

/-- At `δ = 1`, `Rup = 3/40`, tail `y = ln(1/20)`: the code's
reconstructed first rate is `exp(logL0) = (923/840)·e⁻¹`. -/
lemma reconstruct2_L0_eval :
    Real.exp (logL0_code 1 (3/40) (Real.log (1/20)))
      = 923 / 840 * (Real.exp 1)⁻¹ := by
  have h20 : Real.exp (Real.log (1/20:ℝ)) = 1/20 :=
    Real.exp_log (by norm_num)
  have hfrac : numerator2 1 (3/40) (Real.log (1/20))
      / denominator2 1 (Real.log (1/20)) = 923 / 840 := by
    unfold numerator2 denominator2 sum_term2
    rw [h20]; norm_num
  unfold logL0_code
  rw [hfrac, Real.exp_sub, Real.exp_log (by norm_num)]
  rw [show (1:ℝ)/1 = 1 by norm_num, div_eq_mul_inv]

/-- Helper: the swap rate of the vector reconstructed by the code from
the tail `ln(1/20)` (at `δ = 1`, `Rup = 3/40`) exceeds the barrier
`3/40` by more than `1/10`. -/
lemma R_swap_reconstruct2_gt :
    3/40 + 1/10 < R_swap (reconstruct2 1 (3/40) (Real.log (1/20))) 1 := by
  have h20 : Real.exp (Real.log (1/20:ℝ)) = 1/20 :=
    Real.exp_log (by norm_num)
  have hepos : (0:ℝ) < Real.exp 1 := Real.exp_pos 1
  have hene : Real.exp 1 ≠ 0 := ne_of_gt hepos
  have heb : Real.exp 1 < 2.7182818286 := Real.exp_one_lt_d9
  have hrec : reconstruct2 1 (3/40) (Real.log (1/20))
      = ![logL0_code 1 (3/40) (Real.log (1/20)), Real.log (1/20)] := rfl
  rw [hrec, R_swap_two, reconstruct2_L0_eval, h20]
  set E : ℝ := (Real.exp 1)⁻¹ with hE
  have hEpos : 0 < E := by positivity
  have hEe : E * Real.exp 1 = 1 := inv_mul_cancel₀ hene
  have hElb : 1/3 < E := by nlinarith [hEpos, heb, hEe]
  have hA : (0:ℝ) < 1 + 923 / 840 * E := by positivity
  have hRval : (1 - 1 / ((1 + 923 / 840 * E) * (1 + (1:ℝ)/20))) /
      (1 / (1 + 923 / 840 * E) +
        1 / ((1 + 923 / 840 * E) * (1 + (1:ℝ)/20)))
      = (1 + 923 / 40 * E) / 41 := by
    field_simp
    ring
  rw [hRval, lt_div_iff₀ (by norm_num : (0:ℝ) < 41)]
  nlinarith [hElb]

/-- C1 (code evaluation): at the failing input `δ = 1`, `Rup = 3/40`,
tail `y = ln(1/20)`, the code's reconstructed coordinate differs from
the closed form of equation (6.13), and the reconstructed vector does
NOT satisfy `swapRate = Rup`: its swap rate exceeds `3/40` by more than
`1/10` — the subtraction of `1/δ` happens outside the logarithm. -/
theorem theorem_C1 :
    logL0_code 1 (3/40) (Real.log (1/20))
        ≠ logL0_eq613 1 (3/40) (Real.log (1/20)) ∧
      3/40 + 1/10 < R_swap (reconstruct2 1 (3/40) (Real.log (1/20))) 1 := by
  have h20 : Real.exp (Real.log (1/20:ℝ)) = 1/20 :=
    Real.exp_log (by norm_num)
  have hfrac : numerator2 1 (3/40) (Real.log (1/20))
      / denominator2 1 (Real.log (1/20)) = 923 / 840 := by
    unfold numerator2 denominator2 sum_term2
    rw [h20]; norm_num
  have hepos : (0:ℝ) < Real.exp 1 := Real.exp_pos 1
  have hene : Real.exp 1 ≠ 0 := ne_of_gt hepos
  have heb : Real.exp 1 < 2.7182818286 := Real.exp_one_lt_d9
  refine ⟨?_, R_swap_reconstruct2_gt⟩
  -- exp of the two candidate coordinates differ
  intro hcontra
  have h1 : Real.exp (logL0_code 1 (3/40) (Real.log (1/20)))
      = Real.exp (logL0_eq613 1 (3/40) (Real.log (1/20))) := by
    rw [hcontra]
  rw [reconstruct2_L0_eval] at h1
  have h2 : Real.exp (logL0_eq613 1 (3/40) (Real.log (1/20)))
      = 83 / 840 := by
    unfold logL0_eq613
    rw [hfrac]
    rw [show (923:ℝ)/840 - 1/1 = 83/840 by norm_num]
    exact Real.exp_log (by norm_num)
  rw [h2] at h1
  -- 923/840 · e⁻¹ = 83/840 would force e = 923/83 > 11
  have h3 : Real.exp 1 = 923 / 83 := by
    field_simp [hene] at h1
    linarith
  rw [h3] at heb
  norm_num at heb

/-- The state used as C2/C4's failing input: the image of the tail
`ln(1/20)` under the code's reconstruction, so that the fast
projection's initial iterate `y0 = x[1:]` is already the unique global
minimizer of its objective. -/
def xC : Fin 2 → ℝ := reconstruct2 1 (3/40) (Real.log (1/20))

/-- C2 (code evaluation): on input `xC` (at `δ = 1`, `Rup = 3/40`), any
tail `y` at least as good as the initial iterate for the fast
projection's objective equals the initial iterate, and the point the
code then reconstructs and returns has
`|swapRate(x*, δ) - Rup| > 1/10`, far above the `1e-6` tolerance. -/
theorem theorem_C2 (y : ℝ)
    (hy : objective2 1 (3/40) xC y ≤ objective2 1 (3/40) xC (Real.log (1/20))) :
    y = Real.log (1/20) ∧
      1/10 < |R_swap (reconstruct2 1 (3/40) y) 1 - 3/40| := by
  have hc0 : objective2 1 (3/40) xC (Real.log (1/20)) = 0 := by
    simp [objective2, xC, Fin.sum_univ_two]
  have hexpand : objective2 1 (3/40) xC y
      = (reconstruct2 1 (3/40) y 0 - xC 0) ^ 2 + (y - Real.log (1/20)) ^ 2 := by
    simp [objective2, Fin.sum_univ_two, reconstruct2, xC]
  have hyc : y = Real.log (1/20) := by
    rw [hc0, hexpand] at hy
    nlinarith [sq_nonneg (reconstruct2 1 (3/40) y 0 - xC 0),
      sq_nonneg (y - Real.log (1/20))]
  refine ⟨hyc, ?_⟩
  rw [hyc]
  have h := R_swap_reconstruct2_gt
  have habs : 1/10 < R_swap (reconstruct2 1 (3/40) (Real.log (1/20))) 1 - 3/40 := by
    linarith
  exact lt_of_lt_of_le habs (le_abs_self _)

/-- Witness for C2: the concrete tail `y = ln(1/20)` satisfies the
minimality hypothesis (it attains the objective's value at itself), and
the reconstructed point indeed misses the barrier by more than `1/10`. -/
theorem theorem_C2_witness :
    Real.log (1/20) = Real.log (1/20) ∧
      1/10 < |R_swap (reconstruct2 1 (3/40) (Real.log (1/20))) 1 - 3/40| :=
  theorem_C2 (Real.log (1/20)) (le_refl _)

set_option maxHeartbeats 1000000 in
/-- C4 (code evaluation): every state `z` within distance `1/2` of the
fast algorithm's output `xC` (coordinatewise, hence also in `‖·‖₂`) has
swap rate above `Rup + 1/100`.  The general constrained algorithm
returns a point whose swap rate is within solver tolerance of
`Rup = 3/40`, so on the input `xC` its output is farther than `1/2`
from the fast algorithm's output — not within solver tolerance. -/
theorem theorem_C4 (z : Fin 2 → ℝ)
    (h0 : |z 0 - xC 0| ≤ 1/2) (h1 : |z 1 - xC 1| ≤ 1/2) :
    3/40 + 1/100 < R_swap z 1 := by
  have hxC0 : Real.exp (xC 0) = 923 / 840 * (Real.exp 1)⁻¹ := by
    have : xC 0 = logL0_code 1 (3/40) (Real.log (1/20)) := rfl
    rw [this]; exact reconstruct2_L0_eval
  have hxC1 : xC 1 = Real.log (1/20) := rfl
  have hepos : (0:ℝ) < Real.exp 1 := Real.exp_pos 1
  have heb : Real.exp 1 < 2.7182818286 := Real.exp_one_lt_d9
  set s : ℝ := Real.exp (1/2) with hs
  have hspos : 0 < s := Real.exp_pos _
  have hss : s * s = Real.exp 1 := by
    rw [hs, ← Real.exp_add]; norm_num
  have hsub : s < 5/3 := by nlinarith [hspos, hss, heb]
  set A : ℝ := Real.exp (z 0) with hA
  set B : ℝ := Real.exp (z 1) with hB
  have hApos : 0 < A := Real.exp_pos _
  have hBpos : 0 < B := Real.exp_pos _
  -- lower bound on A from `z 0 ≥ xC 0 - 1/2`
  have hz0lb : xC 0 - 1/2 ≤ z 0 := by
    have := (abs_le.mp h0).1; linarith
  have hAlb0 : Real.exp (xC 0 - 1/2) ≤ A := Real.exp_le_exp.mpr hz0lb
  have hAeval : Real.exp (xC 0 - 1/2) = 923 / (840 * (s * s * s)) := by
    rw [Real.exp_sub, hxC0, ← hs, ← hss]
    field_simp
    ring
  have hcube : s * s * s < 125/27 := by nlinarith [hspos, hsub]
  have hcubepos : 0 < s * s * s := by positivity
  have hAlb : (923:ℝ) / (840 * (125/27)) < A := by
    have hlt : (923:ℝ) / (840 * (125/27)) < 923 / (840 * (s * s * s)) := by
      apply div_lt_div_of_pos_left (by norm_num) (by positivity)
      nlinarith [hcube]
    calc (923:ℝ) / (840 * (125/27)) < 923 / (840 * (s * s * s)) := hlt
      _ ≤ A := hAeval ▸ hAlb0
  -- upper bound on B from `z 1 ≤ xC 1 + 1/2`
  have hz1ub : z 1 ≤ xC 1 + 1/2 := by
    have := (abs_le.mp h1).2; linarith
  have hBub : B ≤ 1/20 * s := by
    have h1' : B ≤ Real.exp (xC 1 + 1/2) := Real.exp_le_exp.mpr hz1ub
    have h2' : Real.exp (xC 1 + 1/2) = 1/20 * s := by
      rw [hxC1, Real.exp_add, Real.exp_log (by norm_num), ← hs]
    linarith [h2' ▸ h1']
  have hBub' : B < 1/12 := by nlinarith [hBub, hsub, hspos]
  -- closed form of the two-rate swap rate and the final bound
  have hzeta : z = ![z 0, z 1] := by
    funext i; fin_cases i <;> rfl
  rw [hzeta, R_swap_two, ← hA, ← hB]
  have h1A : (0:ℝ) < 1 + A := by linarith
  have h1B : (0:ℝ) < 1 + B := by linarith
  have hval : (1 - 1 / ((1 + A) * (1 + B))) /
      (1 / (1 + A) + 1 / ((1 + A) * (1 + B)))
      = (A + B + A * B) / (2 + B) := by
    field_simp
    ring
  rw [hval, lt_div_iff₀ (by linarith : (0:ℝ) < 2 + B)]
  nlinarith [hAlb, hBub', hBpos, mul_pos hApos hBpos]

/-- Witness for C4 at `z = xC` itself: the fast algorithm's own output
is within `1/2` of itself and its swap rate exceeds `Rup + 1/100`. -/
theorem theorem_C4_witness : 3/40 + 1/100 < R_swap xC 1 :=
  theorem_C4 xC (by simp) (by simp)

/-! ## Correlated ±1 shocks (`diffusion` of the MC path loop)

The code draws `xi ∈ {−1,1}^N` and computes
`diffusion = sigma * np.sqrt(h) * (U @ xi)` with
`U = cholesky(rho, lower=False)`, i.e. the unique upper-triangular
matrix with positive diagonal satisfying `ρ = Uᵀ U`. -/

/-- The per-step diffusion increment exactly as the code computes it:
`sigma ⊙ √h ⊙ (U ξ)` — note `U @ xi`, not `U.T @ xi`. -/
def diffusion {N : ℕ} (sigma : Fin N → ℝ) (h : ℝ) (U : Fin N → Fin N → ℝ)
    (xi : Fin N → ℝ) : Fin N → ℝ :=
  fun i => sigma i * Real.sqrt h * ∑ k, U i k * xi k

/-- The increment the spec prescribes: `sigma ⊙ √h ⊙ (Uᵀ ξ)`. -/
def diffusionT {N : ℕ} (sigma : Fin N → ℝ) (h : ℝ) (U : Fin N → Fin N → ℝ)
    (xi : Fin N → ℝ) : Fin N → ℝ :=
  fun i => sigma i * Real.sqrt h * ∑ k, U k i * xi k

/-- The `2² = 4` equiprobable ±1 shock vectors at `N = 2`. -/
def xis2 : List (Fin 2 → ℝ) := [![1, 1], ![1, -1], ![-1, 1], ![-1, -1]]

/-- Covariance (entry `(i,j)`) of the code's diffusion increment, as
the expectation over the four equiprobable shock vectors (the increment
has mean zero by symmetry). -/
def cov2 (sigma : Fin 2 → ℝ) (h : ℝ) (U : Fin 2 → Fin 2 → ℝ)
    (i j : Fin 2) : ℝ :=
  ((xis2.map fun xi => diffusion sigma h U xi i * diffusion sigma h U xi j).sum) / 4

/-- Two-rate exponential-decay correlation matrix at the notebook's
`β = 1/10`, `δ = 1` (adjacent anchor times one period apart):
`ρ = [[1, r], [r, 1]]` with `r = exp(−1/10)`. -/
def rho2 : Fin 2 → Fin 2 → ℝ :=
  ![![1, Real.exp (-(1/10))], ![Real.exp (-(1/10)), 1]]

/-- The factor returned by `scipy.linalg.cholesky(rho, lower=False)`
for `rho2`: upper triangular with positive diagonal and `ρ = Uᵀ U`. -/
def U2 : Fin 2 → Fin 2 → ℝ :=
  ![![1, Real.exp (-(1/10))],
    ![0, Real.sqrt (1 - Real.exp (-(1/10)) ^ 2)]]

/-- `U2` really is the (unique) upper Cholesky factor of `rho2`:
`ρ = Uᵀ U`, `U` upper triangular with positive diagonal. -/
lemma U2_cholesky :
    (∀ i j, rho2 i j = ∑ k, U2 k i * U2 k j) ∧
      U2 1 0 = 0 ∧ 0 < U2 0 0 ∧ 0 < U2 1 1 := by
  have hr1 : Real.exp (-(1/10)) < 1 := by
    rw [Real.exp_lt_one_iff]; norm_num
  have hrpos : (0:ℝ) < Real.exp (-(1/10)) := Real.exp_pos _
  have hr2 : Real.exp (-(1/10)) ^ 2 < 1 := by nlinarith
  have hs2 : Real.sqrt (1 - Real.exp (-(1/10)) ^ 2) ^ 2
      = 1 - Real.exp (-(1/10)) ^ 2 :=
    Real.sq_sqrt (by nlinarith)
  refine ⟨?_, rfl, by norm_num [U2], ?_⟩
  · intro i j
    fin_cases i <;> fin_cases j
    all_goals simp [rho2, U2, Fin.sum_univ_two]
    all_goals nlinarith [hs2]
  · have h0 : (0:ℝ) < 1 - Real.exp (-(1/10)) ^ 2 := by nlinarith
    have := Real.sqrt_pos.mpr h0
    simp only [U2, Matrix.cons_val_one, Matrix.head_cons]
    exact this

/-- C3 (code evaluation): with the notebook's `σᵢ = 1/10`, `h = 1/10`
and a two-rate correlation block (`r = e^{−1/10}`), the code's
increment `σ⊙√h⊙(Uξ)` differs from the spec's `σ⊙√h⊙(Uᵀξ)` already at
`ξ = (1,1)`, coordinate 0, and the covariance of the code's increment
at entry `(0,1)` is `h σ₀σ₁·r·√(1−r²) ≠ h σ₀σ₁·ρ₀₁`. -/
theorem theorem_C3 :
    diffusion (fun _ => 1/10) (1/10) U2 ![1, 1] 0
        ≠ diffusionT (fun _ => 1/10) (1/10) U2 ![1, 1] 0 ∧
      cov2 (fun _ => 1/10) (1/10) U2 0 1
        ≠ 1/10 * ((1/10) * (1/10) * rho2 0 1) := by
  have hr1 : Real.exp (-(1/10)) < 1 := by
    rw [Real.exp_lt_one_iff]; norm_num
  have hrpos : (0:ℝ) < Real.exp (-(1/10)) := Real.exp_pos _
  have hs2 : Real.sqrt (1 - Real.exp (-(1/10)) ^ 2) ^ 2
      = 1 - Real.exp (-(1/10)) ^ 2 :=
    Real.sq_sqrt (by nlinarith)
  have hsnn : 0 ≤ Real.sqrt (1 - Real.exp (-(1/10)) ^ 2) := Real.sqrt_nonneg _
  have hslt1 : Real.sqrt (1 - Real.exp (-(1/10)) ^ 2) < 1 := by nlinarith
  have htpos : (0:ℝ) < Real.sqrt (1/10) := Real.sqrt_pos.mpr (by norm_num)
  have ht : Real.sqrt (1/10) * Real.sqrt (1/10) = 1/10 :=
    Real.mul_self_sqrt (by norm_num)
  constructor
  · -- increments differ at ξ = (1,1), coordinate 0
    simp only [diffusion, diffusionT, U2, Fin.sum_univ_two,
      Matrix.cons_val_zero, Matrix.cons_val_one, Matrix.head_cons,
      Matrix.head_fin_const]
    intro hcontra
    nlinarith [hcontra, htpos, hrpos]
  · -- covariances differ at entry (0,1)
    intro hcontra
    simp only [cov2, xis2, diffusion, rho2, U2, List.map_cons, List.map_nil,
      List.sum_cons, List.sum_nil, Fin.sum_univ_two,
      Matrix.cons_val_zero, Matrix.cons_val_one, Matrix.head_cons] at hcontra
    set r : ℝ := Real.exp (-(1/10)) with hrdef
    set s : ℝ := Real.sqrt (1 - r ^ 2) with hsdef
    set t : ℝ := Real.sqrt (1/10) with htdef
    -- hcontra reduces, via t² = 1/10, to (1/1000)·r·s = (1/1000)·r,
    -- impossible since r > 0 and s < 1
    nlinarith [hcontra, ht, hrpos, hslt1, hsnn, htpos,
      mul_pos hrpos (sub_pos.mpr hslt1)]


/-! ## LMM log-Euler drift -/

/-- `np.tril`: the lower-triangular part, diagonal included. -/
def tril {N : ℕ} (M : Fin N → Fin N → ℝ) : Fin N → Fin N → ℝ :=
  fun i j => if j ≤ i then M i j else 0

/-- `full_mat = rho * np.outer(sigma, sigma)`. -/
def full_mat {N : ℕ} (rho : Fin N → Fin N → ℝ) (sigma : Fin N → ℝ) :
    Fin N → Fin N → ℝ :=
  fun i j => rho i j * (sigma i * sigma j)

/-- `drift_mat = np.tril(full_mat)`. -/
def drift_mat {N : ℕ} (rho : Fin N → Fin N → ℝ) (sigma : Fin N → ℝ) :
    Fin N → Fin N → ℝ :=
  tril (full_mat rho sigma)

/-- `v = delta * L / (1 + delta * L)` at `L = exp(logL)`. -/
def v_vec {N : ℕ} (delta : ℝ) (logL : Fin N → ℝ) : Fin N → ℝ :=
  fun i => delta * Real.exp (logL i) / (1 + delta * Real.exp (logL i))

/-- The drift increment exactly as the loop computes it:
`drift_vec = drift_mat.dot(v) * h - 0.5 * sigma**2 * h`. -/
def drift_vec {N : ℕ} (rho : Fin N → Fin N → ℝ) (sigma : Fin N → ℝ)
    (h delta : ℝ) (logL : Fin N → ℝ) : Fin N → ℝ :=
  fun i => (∑ j, drift_mat rho sigma i j * v_vec delta logL j) * h
    - 1/2 * sigma i ^ 2 * h

/-- C6: at every state `logL`, the drift increment applied to
coordinate `i` equals `h·Σ_{j≤i} ρᵢⱼσᵢσⱼ·vⱼ − ½σᵢ²h` with
`vⱼ = δLⱼ/(1+δLⱼ)` — the matrix `ρ⊙(σ⊗σ)` enters only through its
lower-triangular part (diagonal included). -/
theorem theorem_C6 {N : ℕ} (rho : Fin N → Fin N → ℝ) (sigma : Fin N → ℝ)
    (h delta : ℝ) (logL : Fin N → ℝ) (i : Fin N) :
    drift_vec rho sigma h delta logL i
      = h * ∑ j ∈ Finset.univ.filter (fun j => j ≤ i),
          rho i j * sigma i * sigma j
            * (delta * Real.exp (logL j) / (1 + delta * Real.exp (logL j)))
        - 1/2 * sigma i ^ 2 * h := by
  unfold drift_vec
  have hsum : (∑ j, drift_mat rho sigma i j * v_vec delta logL j)
      = ∑ j ∈ Finset.univ.filter (fun j => j ≤ i),
          rho i j * sigma i * sigma j
            * (delta * Real.exp (logL j) / (1 + delta * Real.exp (logL j))) := by
    rw [Finset.sum_filter]
    refine Finset.sum_congr rfl fun j _ => ?_
    unfold drift_mat tril full_mat v_vec
    by_cases hj : j ≤ i
    · simp only [hj, if_true]; ring
    · simp only [hj, if_false, zero_mul]
  rw [hsum]; ring

/-! ## Per-path accounting and Monte Carlo aggregation -/

/-- `P0_T0 = 1.0 / (1 + delta * L0[0])`. -/
def P0_T0 (delta L00 : ℝ) : ℝ := 1 / (1 + delta * L00)

/-- `discount_curve = np.cumprod(1.0/(1 + delta * L_end))` at
`L_end = exp(logL)`. -/
def discount_curve {N : ℕ} (delta : ℝ) (logL : Fin N → ℝ) : Fin N → ℝ :=
  cumProd fun i => 1 / (1 + delta * Real.exp (logL i))

/-- `payoffs[p] = delta * max(R_swap(logL, delta) - K, 0)`. -/
def payoff_code {N : ℕ} (delta K : ℝ) (logL : Fin N → ℝ) : ℝ :=
  delta * max (R_swap logL delta - K) 0

/-- End-of-loop state of one path: final log-curve, recorded exit step
and knock-out flag. -/
structure PathEnd (N : ℕ) where
  logL : Fin N → ℝ
  exitStep : ℕ
  knockedOut : Bool

/-- The entry written into `prices`: zero-initialized, assigned
`P0_T0 * (discount_sums[p] * payoffs[p])` only when the path was not
knocked out. -/
def price_entry {N : ℕ} (delta K L00 : ℝ) (pe : PathEnd N) : ℝ :=
  if pe.knockedOut then 0
  else P0_T0 delta L00 * ((∑ j, discount_curve delta pe.logL j)
    * payoff_code delta K pe.logL)

/-- `price = np.mean(prices)` over all paths. -/
def mc_price {N : ℕ} (delta K L00 : ℝ) (ps : List (PathEnd N)) : ℝ :=
  (ps.map (price_entry delta K L00)).sum / ps.length

/-- `mean_exit_time = np.mean(exit_times)` with
`exit_times[p] = exit_step * h`. -/
def mc_mean_exit_time {N : ℕ} (h : ℝ) (ps : List (PathEnd N)) : ℝ :=
  (ps.map fun pe => (pe.exitStep : ℝ) * h).sum / ps.length

/-- C7: each surviving path contributes
`P(0,T0)·(Σ cumulative discounts)·δ·max(swapRate−K,0)` with
`P(0,T0) = 1/(1+δ·L0₀)`, each knocked-out path contributes exactly `0`,
the price is the mean contribution and the mean exit time is the mean
of `exitStep·h`, over all paths. -/
theorem theorem_C7 {N : ℕ} (delta K L00 h : ℝ) (ps : List (PathEnd N))
    (pe : PathEnd N) :
    (pe.knockedOut = true → price_entry delta K L00 pe = 0) ∧
      (pe.knockedOut = false → price_entry delta K L00 pe
        = (1 / (1 + delta * L00))
            * (∑ j, ∏ i ∈ Finset.Iic j, (1 + delta * Real.exp (pe.logL i))⁻¹)
            * (delta * max (R_swap pe.logL delta - K) 0)) ∧
      mc_price delta K L00 ps
        = (ps.map (price_entry delta K L00)).sum / ps.length ∧
      mc_mean_exit_time h ps
        = (ps.map fun q => (q.exitStep : ℝ) * h).sum / ps.length := by
  refine ⟨fun hk => ?_, fun hk => ?_, rfl, rfl⟩
  · simp [price_entry, hk]
  · simp only [price_entry, hk, Bool.false_eq_true, if_false, P0_T0,
      payoff_code, discount_curve, cumProd]
    have hprod : ∀ j : Fin N,
        (∏ i ∈ Finset.Iic j, 1 / (1 + delta * Real.exp (pe.logL i)))
          = ∏ i ∈ Finset.Iic j, (1 + delta * Real.exp (pe.logL i))⁻¹ := by
      intro j
      exact Finset.prod_congr rfl fun i _ => one_div _
    rw [Finset.sum_congr rfl fun j _ => hprod j]
    ring

/-! ## Projection-failure semantics of the engine -/

/-- The exception raised when `project_to_barrier2`'s solver reports
failure at path `p`, step `k`:
`RuntimeError("Projection2 failed: " + res.message)`.  The raise site
has the loop indices `p` and `k` in scope, but the constructed error
value is built from the solver message alone. -/
def projection2Raise (_p _k : ℕ) (msg : String) : String :=
  "Projection2 failed: " ++ msg

/-- The engine's sequential path loop: paths `0, …, n−1` run in order
and contribute their results; an uncaught exception from any path
aborts the whole loop and no aggregate is produced. -/
def runPaths (path : ℕ → Except String ℝ) : ℕ → Except String (List ℝ)
  | 0 => Except.ok []
  | n + 1 =>
    match runPaths path n with
    | Except.error e => Except.error e
    | Except.ok xs =>
      match path n with
      | Except.error e => Except.error e
      | Except.ok x => Except.ok (xs ++ [x])

/-- If every path before `n` succeeds, the loop up to `n` succeeds. -/
lemma runPaths_ok (path : ℕ → Except String ℝ) (n : ℕ)
    (hok : ∀ q, q < n → ∃ v, path q = Except.ok v) :
    ∃ l, runPaths path n = Except.ok l := by
  induction n with
  | zero => exact ⟨[], rfl⟩
  | succ m ih =>
    obtain ⟨l, hl⟩ := ih fun q hq => hok q (Nat.lt_succ_of_lt hq)
    obtain ⟨v, hv⟩ := hok m (Nat.lt_succ_self m)
    exact ⟨l ++ [v], by simp [runPaths, hl, hv]⟩

/-- C8 (amended): a projection failure at path `p`, step `k` is fatal
for the whole run — the loop returns the error, no partial aggregate —
but the raised error is identical for every path/step pair: it carries
only the solver's message, not the failure indices. -/
theorem theorem_C8 (path : ℕ → Except String ℝ) (n p k : ℕ) (msg : String)
    (hpn : p < n) (hok : ∀ q, q < p → ∃ v, path q = Except.ok v)
    (hfail : path p = Except.error (projection2Raise p k msg)) :
    runPaths path n = Except.error (projection2Raise p k msg) ∧
      ∀ p' k' : ℕ, projection2Raise p k msg = projection2Raise p' k' msg := by
  refine ⟨?_, fun p' k' => rfl⟩
  induction n with
  | zero => omega
  | succ m ih =>
    rcases Nat.lt_succ_iff_lt_or_eq.mp hpn with hlt | heq
    · have hm := ih hlt
      simp [runPaths, hm]
    · subst heq
      obtain ⟨l, hl⟩ := runPaths_ok path p hok
      simp [runPaths, hl, hfail]

/-- Witness for C8: a concrete run of three paths in which path 1 fails
at step 2 aborts with the bare solver message. -/
theorem theorem_C8_witness :
    runPaths
        (fun q => if q = 1
          then Except.error (projection2Raise 1 2 "maxiter")
          else Except.ok 0) 3
      = Except.error (projection2Raise 1 2 "maxiter") :=
  (theorem_C8
    (fun q => if q = 1
      then Except.error (projection2Raise 1 2 "maxiter")
      else Except.ok 0)
    3 1 2 "maxiter" (by norm_num)
    (fun q hq => ⟨0, by
      have hq0 : q = 0 := by omega
      subst hq0; rfl⟩)
    rfl).1

/-- Counterexample for C8 as stated: no decoding function can recover
the path and step index from the raised error, because distinct
failure sites produce identical error values. -/
theorem theorem_C8_counterexample :
    ¬ ∃ f : String → ℕ × ℕ,
        ∀ p k : ℕ, f (projection2Raise p k "maxiter") = (p, k) := by
  rintro ⟨f, hf⟩
  have h0 := hf 0 0
  have h1 := hf 1 1
  rw [show projection2Raise 0 0 "maxiter" = projection2Raise 1 1 "maxiter"
    from rfl] at h0
  rw [h1] at h0
  exact absurd h0 (by decide)

/-! ## Boundary-zone divisor -/

/-- `np.linalg.norm(logL_pi - logL)`. -/
def distNorm {N : ℕ} (a b : Fin N → ℝ) : ℝ :=
  Real.sqrt (∑ i, (a i - b i) ^ 2)

/-- `lambda_k = np.sqrt(N) * coarse_bound`. -/
def lambda_k (sigma_max h : ℝ) (N : ℕ) : ℝ :=
  Real.sqrt N * coarse_bound sigma_max h N

/-- C10: whenever a path in the boundary zone is not knocked out — the
uniform draw `u ∈ [0,1)` fails the test `u < λ/(dist+λ)` — the divisor
`dist = ‖x* − x‖` is strictly positive, so the pull update
`(λ/dist)·(x*−x)` never divides by zero (and `dist+λ > 0` always). -/
theorem theorem_C10 {N : ℕ} (hN : 1 ≤ N) (sigma_max h u : ℝ)
    (hh : 0 < h) (hs : 0 < sigma_max) (_hu0 : 0 ≤ u) (hu1 : u < 1)
    (x xstar : Fin N → ℝ)
    (hnk : ¬ (u < lambda_k sigma_max h N
      / (distNorm xstar x + lambda_k sigma_max h N))) :
    0 < distNorm xstar x := by
  have hN1 : (1:ℝ) ≤ (N:ℝ) := by exact_mod_cast hN
  have hcb : 0 < coarse_bound sigma_max h N := by
    unfold coarse_bound
    have h1 : 0 < sigma_max ^ 2 * h * N - 1/2 * sigma_max ^ 2 * h := by
      nlinarith [pow_pos hs 2, hh, mul_pos (pow_pos hs 2) hh]
    have h2 : 0 ≤ sigma_max * Real.sqrt (h * N) := by positivity
    linarith
  have hsqN : 0 < Real.sqrt N := Real.sqrt_pos.mpr (by linarith)
  have hlam : 0 < lambda_k sigma_max h N := mul_pos hsqN hcb
  have hd0 : 0 ≤ distNorm xstar x := Real.sqrt_nonneg _
  push_neg at hnk
  by_contra hcon
  push_neg at hcon
  have hdeq : distNorm xstar x = 0 := le_antisymm hcon hd0
  rw [hdeq, zero_add, div_self (ne_of_gt hlam)] at hnk
  linarith

/-- Witness for C10 at `N = 1`, `σmax = 1`, `h = 1`, `u = 7/10`,
`x = (0)`, `x* = (1)`: the knockout test fails (`7/10 ≥ 3/5`) and the
divisor is `1 > 0`. -/
theorem theorem_C10_witness : 0 < distNorm ![(1:ℝ)] ![(0:ℝ)] := by
  have hl : lambda_k 1 1 1 = 3/2 := by
    unfold lambda_k coarse_bound
    norm_num [Real.sqrt_one]
  have hd : distNorm ![(1:ℝ)] ![(0:ℝ)] = 1 := by
    unfold distNorm
    rw [Fin.sum_univ_one]
    norm_num
  refine theorem_C10 (by norm_num) 1 1 (7/10) (by norm_num) (by norm_num)
    (by norm_num) (by norm_num) ![(0:ℝ)] ![(1:ℝ)] ?_
  rw [hl, hd]
  norm_num

end

end Swaption
